import Mathlib

/-!
Verification development for the littleschemer reader
(src/lexer.rs, src/parser.rs of simonbrahan/littleschemer).

Modelling conventions (shallow embedding):
* Source text is a `List Char` (Rust iterates `input.chars()`); the current
  lexer (src/lexer.rs) is consistently indexed by character position, so it
  is embedded by consuming the remaining character list directly.
* Rust `f64` literal parsing is idealised by the exact rational value denoted
  by the decimal literal (`ℚ`); acceptance/rejection follows the grammar that
  `f64::from_str` applies to strings drawn from the alphabet
  digit / `.` / `e` / `-` actually reachable from the lexer.
* `char::is_numeric` is modelled by ASCII `Char.isDigit` and
  `char::is_whitespace` by `Char.isWhitespace`; both lexers use the same
  modelling so it does not affect their comparison.
* A Rust panic (`.expect(..)` past the end of input) is an explicit
  `LexResult.panic` outcome: it is not a value of the returned `Result`.
* The `Err` variant of the Rust return type `Result<Vec<LexToken>, &str>`
  is `LexResult.err`; the code never constructs it (see claim C8).
-/

/-- Tokens of src/lexer.rs (`enum LexToken`); also the token type of the
older lexer in src/parser.rs, which is structurally identical. -/
inductive LexToken
  | Num (q : ℚ)
  | Symbol (s : List Char)
  | String (s : List Char)
  | LeftBracket
  | RightBracket
deriving DecidableEq, Repr

/-- Outcome of one call to `lex_input`: a Rust panic, or the returned
`Result` (`ok` = `Ok`, `err` = `Err`). -/
inductive LexResult
  | panic
  | ok (toks : List LexToken)
  | err (msg : List Char)
deriving DecidableEq, Repr

/-- Character class of the numeric scan in `lex_number`
(src/lexer.rs line 167 and the run predicate of src/parser.rs line 129):
`char.is_numeric() || char == '.' || char == 'e' || char == '-'`. -/
def numChar (c : Char) : Bool :=
  c.isDigit || c = '.' || c = 'e' || c = '-'

/-- Character class of `lex_symbol` (src/lexer.rs line 184):
`!char.is_whitespace() && *char != '(' && *char != ')'`. -/
def symChar (c : Char) : Bool :=
  !c.isWhitespace && c ≠ '(' && c ≠ ')'

/-- Scale an integer mantissa by a signed power of ten, exactly. -/
def ratScale (n : Int) (e : Int) : ℚ :=
  if 0 ≤ e then Rat.divInt (n * ((10 ^ e.toNat : Nat) : Int)) 1
  else Rat.divInt n ((10 ^ (-e).toNat : Nat) : Int)

/-- Value of a digit string read most-significant first. -/
def digitsVal (l : List Char) : Nat :=
  l.foldl (fun n c => 10 * n + (c.toNat - 48)) 0

/-- Exponent suffix of the `f64` grammar: empty, or `e` followed by an
optional sign and at least one digit, consuming the whole rest. -/
def parseExpPart : List Char → Option Int
  | [] => some 0
  | 'e' :: t =>
    let st : Int × List Char :=
      match t with
      | '-' :: t1 => (-1, t1)
      | '+' :: t1 => (1, t1)
      | t1 => (1, t1)
    let ds := st.2.takeWhile Char.isDigit
    let r := st.2.dropWhile Char.isDigit
    if ds = [] then none
    else if r = [] then some (st.1 * digitsVal ds)
    else none
  | _ => none

/-- Acceptance and exact value of `str::parse::<f64>()` on strings over the
lexer's numeric alphabet: optional sign, a mantissa with at least one digit
(`d+`, `d+.d*` or `.d+`), optional exponent, nothing trailing. Overflow to
infinity and rounding are idealised away: the exact decimal value is kept. -/
def parseF64 (s : List Char) : Option ℚ :=
  let st : Int × List Char :=
    match s with
    | '-' :: t => (-1, t)
    | '+' :: t => (1, t)
    | t => (1, t)
  let ip := st.2.takeWhile Char.isDigit
  let r1 := st.2.dropWhile Char.isDigit
  match r1 with
  | '.' :: r2 =>
    let fp := r2.takeWhile Char.isDigit
    let r3 := r2.dropWhile Char.isDigit
    if ip = [] ∧ fp = [] then none
    else
      match parseExpPart r3 with
      | none => none
      | some e =>
        some (ratScale (st.1 * (digitsVal ip * 10 ^ fp.length + digitsVal fp)) (e - fp.length))
  | r2 =>
    if ip = [] then none
    else
      match parseExpPart r2 with
      | none => none
      | some e => some (ratScale (st.1 * digitsVal ip) e)

/-- Body loop of `lex_string` (src/lexer.rs lines 115-132), entered after the
opening quote: repeatedly `take_next`; an unescaped `"` terminates, an
unescaped `\` sets the escape flag, every other character is pushed.
`none` models the `take_next` panic on end of input. Returns the collected
characters and the input remaining after the closing quote. -/
def lexStringBody : List Char → Bool → Option (List Char × List Char)
  | [], _ => none
  | c :: rest, esc =>
    if c = '"' ∧ ¬esc then some ([], rest)
    else if c = '\\' ∧ ¬esc then lexStringBody rest true
    else
      match lexStringBody rest false with
      | none => none
      | some (out, rem) => some (c :: out, rem)

/-- `lex_number` (src/lexer.rs lines 166-181) on remaining input `c :: rest`:
if the next character is numeric-looking, read (without consuming) the run of
numeric-looking characters; on a successful `f64` parse consume the run and
emit `Num`, otherwise emit nothing and consume nothing. -/
def lexNumber (c : Char) (rest : List Char) : Option (LexToken × List Char) :=
  if numChar c then
    let run := (c :: rest).takeWhile numChar
    match parseF64 run with
    | some q => some (.Num q, (c :: rest).drop run.length)
    | none => none
  else none

/-- Result of one iteration of the `lex_input` scan loop. -/
inductive StepRes
  | panic
  | emit (t : LexToken) (rest : List Char)
  | skip (rest : List Char)
deriving DecidableEq, Repr

/-- One iteration of the `while` loop of `lex_input` (src/lexer.rs lines
74-103) on remaining input `c :: rest`, trying in order: string, number,
left bracket, right bracket, whitespace, symbol. -/
def lexStep (c : Char) (rest : List Char) : StepRes :=
  if c = '"' then
    match lexStringBody rest false with
    | none => .panic
    | some (out, rem) => .emit (.String out) rem
  else
    match lexNumber c rest with
    | some (t, rem) => .emit t rem
    | none =>
      if c = '(' then .emit .LeftBracket rest
      else if c = ')' then .emit .RightBracket rest
      else if c.isWhitespace then .skip rest
      else
        let out := (c :: rest).takeWhile symChar
        .emit (.Symbol out) ((c :: rest).drop out.length)

/-- The scan loop of `lex_input`, with explicit fuel bounding the number of
iterations; `none` is fuel exhaustion. Fuel equal to the length of the
remaining input always suffices (claim C7). -/
def lexLoop : Nat → List Char → List LexToken → Option LexResult
  | _, [], acc => some (.ok acc.reverse)
  | 0, _ :: _, _ => none
  | f + 1, c :: rest, acc =>
    match lexStep c rest with
    | .panic => some .panic
    | .emit t rem => lexLoop f rem (t :: acc)
    | .skip rem => lexLoop f rem acc

/-- `lex_input` of src/lexer.rs. The `getD .panic` default is unreachable:
`lexLoop` with this fuel never runs out (proved as claim C7). -/
def lex_input (cs : List Char) : LexResult :=
  (lexLoop cs.length cs []).getD .panic

/-- The scan loop started on a given remaining input with the fuel that
always suffices; auxiliary device for stating loop invariants. -/
def runFrom (cs : List Char) (acc : List LexToken) : Option LexResult :=
  lexLoop cs.length cs acc

namespace Legacy

/-!
Model of the older lexer in src/parser.rs. It re-scans the whole input by
character index (`input.chars().nth(from_idx)`), but measures its progress
in two incompatible units: the loop bound and the string/number/symbol
advances use `str::len()` / `String::len()` (UTF-8 **bytes**), while
`nth` counts **characters**. Both are modelled exactly: indices are
character positions, byte lengths are `byteLen`.
-/

/-- UTF-8 byte length of a character sequence, as Rust `str::len()`. -/
def byteLen (l : List Char) : Nat := (l.map Char.utf8Size).sum

/-- One loop iteration of src/parser.rs `lex_input` result: the token
emitted (if any) and the next value of `current_idx`. -/
inductive StepRes
  | panic
  | emit (t : LexToken) (j : Nat)
  | skip (j : Nat)
deriving DecidableEq, Repr

/-- `lex_number` of src/parser.rs (lines 117-136): guard on
`is_numeric() || '-' || '.'` (note: no `e`, unlike src/lexer.rs), then the
same numeric run and `f64` parse; the new index advances by the **byte**
length of the run. -/
def lexNumber (input : List Char) (i : Nat) (c : Char) : Option (LexToken × Nat) :=
  if c.isDigit || c = '-' || c = '.' then
    let run := (input.drop i).takeWhile numChar
    match parseF64 run with
    | some q => some (.Num q, i + byteLen run)
    | none => none
  else none

/-- One iteration of the src/parser.rs scan loop at character index `i`.
`lex_string` (lines 56-76) has no escape handling: it collects characters
up to the next `"` (or the end of input) and advances by the **byte**
length of the collected text plus 2. `panic` models
`chars().nth(i).expect(..)` failing. -/
def lexStep (input : List Char) (i : Nat) : StepRes :=
  match input.get? i with
  | none => .panic
  | some c =>
    if c = '"' then
      let out := (input.drop (i + 1)).takeWhile (fun d => d ≠ '"')
      .emit (.String out) (i + byteLen out + 2)
    else
      match lexNumber input i c with
      | some (t, j) => .emit t j
      | none =>
        if c = '(' then .emit .LeftBracket (i + 1)
        else if c = ')' then .emit .RightBracket (i + 1)
        else if c.isWhitespace then .skip (i + 1)
        else
          let out := (input.drop i).takeWhile symChar
          .emit (.Symbol out) (i + byteLen out)

/-- The `while current_idx < input.len()` loop of src/parser.rs lines 16-51,
with fuel; `none` is fuel exhaustion (unreachable from `lex_input` below,
where the fuel is the byte length and every iteration advances the index). -/
def lexLoop (input : List Char) : Nat → Nat → List LexToken → Option LexResult
  | fuel, i, acc =>
    if i < byteLen input then
      match fuel with
      | 0 => none
      | f + 1 =>
        match lexStep input i with
        | .panic => some .panic
        | .emit t j => lexLoop input f j (t :: acc)
        | .skip j => lexLoop input f j acc
    else some (.ok acc.reverse)

/-- `lex_input` of src/parser.rs. -/
def lex_input (input : List Char) : LexResult :=
  (lexLoop input (byteLen input) 0 []).getD .panic

end Legacy

/-- Modelled from the spec: the expression tree `Expr` of spec section 3.
No parser is present under src/ (src/parser.rs holds an older lexer), so the
parser component is modelled from spec sections 3 and 4.2. -/
inductive Expr
  | Num (q : ℚ)
  | Symbol (s : List Char)
  | String (s : List Char)
  | List (es : List Expr)

/-- Modelled from the spec: the parse error taxonomy of spec section 7. -/
inductive ParseError
  | UnmatchedOpen
  | UnmatchedClose
deriving DecidableEq, Repr

/-- Modelled from the spec: the recursive-descent parser of spec section 4.2
in the explicit-stack form the spec allows (section 4.2 and section 9).
`acc` holds the children of the innermost open list in reverse; `st` holds
the partially built enclosing lists. Atom tokens become leaf expressions;
LeftBracket opens a list; RightBracket closes the innermost open list, or
fails with `UnmatchedClose` when none is open; end of tokens fails with
`UnmatchedOpen` while a list is still open. -/
def parseLoop : List LexToken → List Expr → List (List Expr) → Except ParseError (List Expr)
  | [], acc, [] => .ok acc.reverse
  | [], _, _ :: _ => .error .UnmatchedOpen
  | .Num q :: ts, acc, st => parseLoop ts (.Num q :: acc) st
  | .Symbol s :: ts, acc, st => parseLoop ts (.Symbol s :: acc) st
  | .String s :: ts, acc, st => parseLoop ts (.String s :: acc) st
  | .LeftBracket :: ts, acc, st => parseLoop ts [] (acc :: st)
  | .RightBracket :: _, _, [] => .error .UnmatchedClose
  | .RightBracket :: ts, acc, parent :: st => parseLoop ts (.List acc.reverse :: parent) st

/-- Modelled from the spec: `parse` of spec section 4.2, returning the
sequence of top-level expressions (spec: "or, equivalently, a sequence of
top-level expressions if more than one appears at depth 0"). -/
def parse (ts : List LexToken) : Except ParseError (List Expr) :=
  parseLoop ts [] []

mutual

/-- Token rendering of one expression: the tokens a `List` node abbreviates
are its children between one LeftBracket/RightBracket pair, in order. -/
def exprToTokens : Expr → List LexToken
  | .Num q => [.Num q]
  | .Symbol s => [.Symbol s]
  | .String s => [.String s]
  | .List es => .LeftBracket :: exprsToTokens es ++ [.RightBracket]

/-- Token rendering of a sequence of expressions, in order. -/
def exprsToTokens : List Expr → List LexToken
  | [] => []
  | e :: es => exprToTokens e ++ exprsToTokens es

end

/-- Bracket-balance scan of a token sequence at a given open-bracket depth:
reports the first bracket error a left-to-right scan meets (`UnmatchedClose`
for a RightBracket at depth 0, `UnmatchedOpen` for end of input at positive
depth), and `none` when the brackets balance. -/
def scanBrackets : List LexToken → Nat → Option ParseError
  | [], 0 => none
  | [], _ + 1 => some .UnmatchedOpen
  | .LeftBracket :: ts, d => scanBrackets ts (d + 1)
  | .RightBracket :: _, 0 => some .UnmatchedClose
  | .RightBracket :: ts, d + 1 => scanBrackets ts d
  | .Num _ :: ts, d => scanBrackets ts d
  | .Symbol _ :: ts, d => scanBrackets ts d
  | .String _ :: ts, d => scanBrackets ts d

theorem lexStringBody_shrink :
    ∀ (l : List Char) (esc : Bool) (out rem : List Char),
      lexStringBody l esc = some (out, rem) → rem.length ≤ l.length := by
  intro l
  induction l with
  | nil => intro esc out rem h; simp [lexStringBody] at h
  | cons c rest ih =>
    intro esc out rem h
    simp only [lexStringBody] at h
    split at h
    · injection h with h
      injection h with h1 h2
      subst h2
      simp
    · split at h
      · have := ih true out rem h
        simpa using Nat.le_succ_of_le this
      · cases hb : lexStringBody rest false with
        | none => rw [hb] at h; exact absurd h (by simp)
        | some p =>
          rw [hb] at h
          injection h with h
          injection h with h1 h2
          subst h2
          have := ih false p.1 p.2 (by rw [hb])
          simpa using Nat.le_succ_of_le this

theorem lexNumber_shrink {c : Char} {rest : List Char} {t : LexToken} {rem : List Char}
    (h : lexNumber c rest = some (t, rem)) : rem.length ≤ rest.length := by
  simp only [lexNumber] at h
  split at h
  · rename_i hnum
    split at h
    · injection h with h
      injection h with h1 h2
      subst h2
      have hrun : (c :: rest).takeWhile numChar = c :: rest.takeWhile numChar := by
        simp [List.takeWhile_cons, hnum]
      rw [hrun]
      simp
    · exact absurd h (by simp)
  · exact absurd h (by simp)

theorem lexStep_skip {c : Char} {rest rem : List Char}
    (h : lexStep c rest = .skip rem) : rem = rest := by
  unfold lexStep at h
  split at h
  · split at h <;> simp_all
  · split at h
    · simp_all
    · split at h
      · simp_all
      · split at h
        · simp_all
        · split at h
          · injection h with h2
            exact h2.symm
          · simp_all

theorem lexStep_shrink {c : Char} {rest : List Char} {t : LexToken} {rem : List Char}
    (h : lexStep c rest = .emit t rem) : rem.length ≤ rest.length := by
  unfold lexStep at h
  split at h
  · split at h
    · simp_all
    · rename_i p heq
      injection h with h1 h2
      subst h2
      exact lexStringBody_shrink _ _ _ _ heq
  · split at h
    · rename_i p heq
      injection h with h1 h2
      subst h2
      exact lexNumber_shrink heq
    · split at h
      · injection h with h1 h2; subst h2; exact le_rfl
      · split at h
        · injection h with h1 h2; subst h2; exact le_rfl
        · split at h
          · simp_all
          · rename_i hq hnum hl hr hw
            injection h with h1 h2
            subst h2
            have hsym : symChar c = true := by
              simp [symChar, hl, hr]
              simpa using hw
            have hrun : (c :: rest).takeWhile symChar = c :: rest.takeWhile symChar := by
              simp [List.takeWhile_cons, hsym]
            rw [hrun]
            simp

theorem lexLoop_mono :
    ∀ (f : Nat) (cs : List Char) (acc : List LexToken), cs.length ≤ f →
      lexLoop f cs acc = lexLoop cs.length cs acc := by
  intro f
  induction f using Nat.strong_induction_on with
  | _ f ih =>
    intro cs acc hle
    match cs with
    | [] => cases f <;> simp [lexLoop]
    | c :: rest =>
      obtain ⟨g, rfl⟩ : ∃ g, f = g + 1 := ⟨f - 1, by simp at hle; omega⟩
      simp only [List.length_cons] at hle
      cases hs : lexStep c rest with
      | panic => simp [lexLoop, hs]
      | emit t rem =>
        have h1 : rem.length ≤ rest.length := lexStep_shrink hs
        simp only [List.length_cons, lexLoop, hs]
        rw [ih g (by omega) rem (t :: acc) (by omega),
          ih rest.length (by omega) rem (t :: acc) (by omega)]
      | skip rem =>
        obtain rfl : rem = rest := lexStep_skip hs
        simp only [List.length_cons, lexLoop, hs]
        rw [ih g (by omega) rem acc (by omega),
          ih rem.length (by omega) rem acc (by omega)]

theorem lexLoop_isSome :
    ∀ (f : Nat) (cs : List Char) (acc : List LexToken), cs.length ≤ f →
      (lexLoop f cs acc).isSome := by
  intro f
  induction f using Nat.strong_induction_on with
  | _ f ih =>
    intro cs acc hle
    match cs with
    | [] => cases f <;> simp [lexLoop]
    | c :: rest =>
      obtain ⟨g, rfl⟩ : ∃ g, f = g + 1 := ⟨f - 1, by simp at hle; omega⟩
      simp only [List.length_cons] at hle
      simp only [lexLoop]
      cases hs : lexStep c rest with
      | panic => simp
      | emit t rem =>
        have h1 : rem.length ≤ rest.length := lexStep_shrink hs
        exact ih g (by omega) rem (t :: acc) (by omega)
      | skip rem =>
        obtain rfl : rem = rest := lexStep_skip hs
        exact ih g (by omega) rem acc (by omega)

theorem runFrom_isSome (cs : List Char) (acc : List LexToken) : (runFrom cs acc).isSome :=
  lexLoop_isSome _ _ _ le_rfl

theorem runFrom_some (cs : List Char) (acc : List LexToken) :
    ∃ r, runFrom cs acc = some r := by
  have := runFrom_isSome cs acc
  cases h : runFrom cs acc with
  | none => rw [h] at this; simp at this
  | some r => exact ⟨r, rfl⟩

theorem runFrom_lex_input (cs : List Char) : runFrom cs [] = some (lex_input cs) := by
  obtain ⟨r, hr⟩ := runFrom_some cs []
  have : lex_input cs = r := by
    unfold lex_input
    unfold runFrom at hr
    rw [hr]
    rfl
  rw [this, hr]

theorem runFrom_nil (acc : List LexToken) : runFrom [] acc = some (.ok acc.reverse) := rfl

theorem runFrom_emit {c : Char} {rest : List Char} {t : LexToken} {rem : List Char}
    (h : lexStep c rest = .emit t rem) (acc : List LexToken) :
    runFrom (c :: rest) acc = runFrom rem (t :: acc) := by
  unfold runFrom
  simp only [List.length_cons, lexLoop, h]
  exact lexLoop_mono rest.length rem (t :: acc) (lexStep_shrink h)

theorem runFrom_skip {c : Char} {rest rem : List Char}
    (h : lexStep c rest = .skip rem) (acc : List LexToken) :
    runFrom (c :: rest) acc = runFrom rem acc := by
  obtain rfl : rem = rest := lexStep_skip h
  unfold runFrom
  simp only [List.length_cons, lexLoop, h]

theorem runFrom_panic {c : Char} {rest : List Char}
    (h : lexStep c rest = .panic) (acc : List LexToken) :
    runFrom (c :: rest) acc = some .panic := by
  unfold runFrom
  simp only [List.length_cons, lexLoop, h]

theorem ws_not_numChar {c : Char} (h : c.isWhitespace = true) : numChar c = false := by
  simp only [Char.isWhitespace, Bool.or_eq_true, decide_eq_true_eq] at h
  rcases h with ((h | h) | h) | h <;> subst h <;> decide

theorem ws_not_symChar {c : Char} (h : c.isWhitespace = true) : symChar c = false := by
  simp [symChar, h]

theorem numChar_symChar {c : Char} (h : numChar c = true) : symChar c = true := by
  have hws : c.isWhitespace = false := by
    cases hw : c.isWhitespace
    · rfl
    · rw [ws_not_numChar hw] at h; exact absurd h (by simp)
  have hl : c ≠ '(' := by intro e; subst e; exact absurd h (by decide)
  have hr : c ≠ ')' := by intro e; subst e; exact absurd h (by decide)
  simp [symChar, hws, hl, hr]

theorem numChar_ne_quote {c : Char} (h : numChar c = true) : c ≠ '"' := by
  intro e; subst e; exact absurd h (by decide)

theorem symChar_not_ws {c : Char} (h : symChar c = true) : c.isWhitespace = false := by
  simp only [symChar, Bool.and_eq_true, Bool.not_eq_eq_eq_not, Bool.not_true] at h
  exact h.1.1

theorem lexStringBody_none_of_no_quote :
    ∀ (l : List Char) (esc : Bool), '"' ∉ l → lexStringBody l esc = none := by
  intro l
  induction l with
  | nil => intro esc _; rfl
  | cons c rest ih =>
    intro esc h
    have hc : c ≠ '"' := by intro e; exact h (by simp [e])
    have hr : '"' ∉ rest := fun m => h (by simp [m])
    simp only [lexStringBody]
    rw [if_neg (by simp [hc])]
    split
    · exact ih true hr
    · rw [ih false hr]

theorem lexStringBody_escape (c : Char) (rest : List Char) :
    lexStringBody ('\\' :: c :: rest) false =
      (lexStringBody rest false).map (fun p => (c :: p.1, p.2)) := by
  have h1 : lexStringBody ('\\' :: c :: rest) false = lexStringBody (c :: rest) true := by
    simp [lexStringBody]
  rw [h1]
  simp only [lexStringBody]
  rw [if_neg (by simp), if_neg (by simp)]
  cases lexStringBody rest false with
  | none => rfl
  | some p => rfl

theorem lexStringBody_plain {c : Char} (hq : c ≠ '"') (hb : c ≠ '\\') (rest : List Char) :
    lexStringBody (c :: rest) false =
      (lexStringBody rest false).map (fun p => (c :: p.1, p.2)) := by
  simp only [lexStringBody]
  rw [if_neg (by simp [hq]), if_neg (by simp [hb])]
  cases lexStringBody rest false with
  | none => rfl
  | some p => rfl

theorem lexNumber_num {c : Char} {rest : List Char} {t : LexToken} {rem : List Char}
    (h : lexNumber c rest = some (t, rem)) : ∃ q, t = .Num q := by
  simp only [lexNumber] at h
  split at h
  · split at h
    · injection h with h
      injection h with h1 h2
      exact ⟨_, h1.symm⟩
    · exact absurd h (by simp)
  · exact absurd h (by simp)

theorem lexStep_symbol_inv {c : Char} {rest s rem : List Char}
    (h : lexStep c rest = .emit (.Symbol s) rem) :
    s ≠ [] ∧ ∀ d ∈ s, symChar d = true := by
  unfold lexStep at h
  split at h
  · split at h
    · simp_all
    · injection h with h1 h2
      exact absurd h1 (by simp)
  · split at h
    · rename_i p heq
      injection h with h1 h2
      obtain ⟨q, rfl⟩ := lexNumber_num heq
      exact absurd h1 (by simp)
    · split at h
      · injection h with h1 h2
        exact absurd h1 (by simp)
      · split at h
        · injection h with h1 h2
          exact absurd h1 (by simp)
        · split at h
          · simp_all
          · rename_i hq hnum hl hr hw
            injection h with h1 h2
            injection h1 with h1
            subst h1
            have hsym : symChar c = true := by
              simp [symChar, hl, hr]
              simpa using hw
            constructor
            · simp [List.takeWhile_cons, hsym]
            · intro d hd
              exact List.mem_takeWhile_imp hd

theorem lexLoop_ne_err :
    ∀ (f : Nat) (cs : List Char) (acc : List LexToken) (s : List Char),
      lexLoop f cs acc ≠ some (.err s) := by
  intro f
  induction f with
  | zero =>
    intro cs acc s h
    cases cs <;> simp [lexLoop] at h
  | succ g ih =>
    intro cs acc s h
    cases cs with
    | nil => simp [lexLoop] at h
    | cons c rest =>
      simp only [lexLoop] at h
      cases hs : lexStep c rest with
      | panic => rw [hs] at h; simp at h
      | emit t rem => rw [hs] at h; exact ih rem (t :: acc) s h
      | skip rem => rw [hs] at h; exact ih rem acc s h

theorem lexLoop_symbol_inv :
    ∀ (f : Nat) (cs : List Char) (acc ts : List LexToken),
      lexLoop f cs acc = some (.ok ts) →
      (∀ s, LexToken.Symbol s ∈ acc → s ≠ [] ∧ ∀ d ∈ s, symChar d = true) →
      ∀ s, LexToken.Symbol s ∈ ts → s ≠ [] ∧ ∀ d ∈ s, symChar d = true := by
  intro f
  induction f with
  | zero =>
    intro cs acc ts h hacc s hs
    cases cs with
    | nil =>
      simp only [lexLoop] at h
      injection h with h
      injection h with h
      subst h
      exact hacc s (List.mem_reverse.mp hs)
    | cons c rest => simp [lexLoop] at h
  | succ g ih =>
    intro cs acc ts h hacc s hs
    cases cs with
    | nil =>
      simp only [lexLoop] at h
      injection h with h
      injection h with h
      subst h
      exact hacc s (List.mem_reverse.mp hs)
    | cons c rest =>
      simp only [lexLoop] at h
      cases hstep : lexStep c rest with
      | panic => rw [hstep] at h; simp at h
      | emit t rem =>
        rw [hstep] at h
        refine ih rem (t :: acc) ts h ?_ s hs
        intro s1 hmem
        rcases List.mem_cons.mp hmem with he | hin
        · subst he
          exact lexStep_symbol_inv hstep
        · exact hacc s1 hin
      | skip rem =>
        rw [hstep] at h
        exact ih rem acc ts h hacc s hs

theorem symChar_ne_lparen {c : Char} (h : symChar c = true) : c ≠ '(' := by
  simp only [symChar, Bool.and_eq_true, decide_eq_true_eq, ne_eq] at h
  exact h.1.2

theorem symChar_ne_rparen {c : Char} (h : symChar c = true) : c ≠ ')' := by
  simp only [symChar, Bool.and_eq_true, decide_eq_true_eq, ne_eq] at h
  exact h.2

theorem lexStep_num {c : Char} {rest : List Char} {q : ℚ}
    (hnum : numChar c = true)
    (hp : parseF64 ((c :: rest).takeWhile numChar) = some q) :
    lexStep c rest =
      .emit (.Num q) ((c :: rest).drop ((c :: rest).takeWhile numChar).length) := by
  unfold lexStep
  rw [if_neg (numChar_ne_quote hnum)]
  have hrun : (c :: rest).takeWhile numChar = c :: rest.takeWhile numChar := by
    simp [List.takeWhile_cons, hnum]
  rw [hrun] at hp
  have hlex : lexNumber c rest =
      some (.Num q, (c :: rest).drop ((c :: rest).takeWhile numChar).length) := by
    simp [lexNumber, hnum, hp, hrun]
  rw [hlex]

theorem lexStep_num_fail {c : Char} {rest : List Char}
    (hnum : numChar c = true)
    (hp : parseF64 ((c :: rest).takeWhile numChar) = none) :
    lexStep c rest =
      .emit (.Symbol ((c :: rest).takeWhile symChar))
        ((c :: rest).drop ((c :: rest).takeWhile symChar).length) := by
  have hsym := numChar_symChar hnum
  have hws := symChar_not_ws hsym
  have hrun : (c :: rest).takeWhile numChar = c :: rest.takeWhile numChar := by
    simp [List.takeWhile_cons, hnum]
  rw [hrun] at hp
  have hlex : lexNumber c rest = none := by
    simp [lexNumber, hnum, hp]
  unfold lexStep
  rw [if_neg (numChar_ne_quote hnum), hlex, if_neg (symChar_ne_lparen hsym),
    if_neg (symChar_ne_rparen hsym), if_neg (by simp [hws])]

theorem takeWhile_mono_ext {p q : Char → Bool} (himp : ∀ c, p c = true → q c = true) :
    ∀ l : List Char, ∃ t, l.takeWhile q = l.takeWhile p ++ t := by
  intro l
  induction l with
  | nil => exact ⟨[], rfl⟩
  | cons c rest ih =>
    cases hp : p c
    · exact ⟨(c :: rest).takeWhile q, by simp [List.takeWhile_cons, hp]⟩
    · obtain ⟨t, ht⟩ := ih
      exact ⟨t, by simp [List.takeWhile_cons, hp, himp c hp, ht]⟩

theorem exprsToTokens_append (a b : List Expr) :
    exprsToTokens (a ++ b) = exprsToTokens a ++ exprsToTokens b := by
  induction a with
  | nil => simp [exprsToTokens]
  | cons e es ih => simp [exprsToTokens, ih]

/-- The tokens already folded into the parser state: each pending stack
frame contributes its (reversed) finished siblings and an open bracket. -/
def stackCtx : List (List Expr) → List LexToken → List LexToken
  | [], inner => inner
  | parent :: st, inner => stackCtx st (exprsToTokens parent.reverse ++ .LeftBracket :: inner)

theorem parseLoop_flat :
    ∀ (ts : List LexToken) (acc : List Expr) (st : List (List Expr)) (es : List Expr),
      parseLoop ts acc st = .ok es →
      exprsToTokens es = stackCtx st (exprsToTokens acc.reverse ++ ts) := by
  intro ts
  induction ts with
  | nil =>
    intro acc st es h
    cases st with
    | nil =>
      simp only [parseLoop] at h
      injection h with h
      subst h
      simp [stackCtx]
    | cons p st1 => simp [parseLoop] at h
  | cons t ts ih =>
    intro acc st es h
    cases t with
    | Num q =>
      rw [ih (.Num q :: acc) st es h]
      congr 1
      simp [exprsToTokens_append, exprsToTokens, exprToTokens]
    | Symbol s =>
      rw [ih (.Symbol s :: acc) st es h]
      congr 1
      simp [exprsToTokens_append, exprsToTokens, exprToTokens]
    | String s =>
      rw [ih (.String s :: acc) st es h]
      congr 1
      simp [exprsToTokens_append, exprsToTokens, exprToTokens]
    | LeftBracket =>
      rw [ih [] (acc :: st) es h]
      simp [stackCtx, exprsToTokens]
    | RightBracket =>
      cases st with
      | nil => simp [parseLoop] at h
      | cons parent st1 =>
        rw [ih (.List acc.reverse :: parent) st1 es h]
        simp [stackCtx, exprsToTokens_append, exprsToTokens, exprToTokens]

theorem parseLoop_ok_of_scan :
    ∀ (ts : List LexToken) (acc : List Expr) (st : List (List Expr)),
      scanBrackets ts st.length = none → ∃ es, parseLoop ts acc st = .ok es := by
  intro ts
  induction ts with
  | nil =>
    intro acc st h
    cases st with
    | nil => exact ⟨acc.reverse, rfl⟩
    | cons p st1 => simp [scanBrackets] at h
  | cons t ts ih =>
    intro acc st h
    cases t with
    | Num q => exact ih (.Num q :: acc) st (by simpa [scanBrackets] using h)
    | Symbol s => exact ih (.Symbol s :: acc) st (by simpa [scanBrackets] using h)
    | String s => exact ih (.String s :: acc) st (by simpa [scanBrackets] using h)
    | LeftBracket => exact ih [] (acc :: st) (by simpa [scanBrackets] using h)
    | RightBracket =>
      cases st with
      | nil => simp [scanBrackets] at h
      | cons parent st1 =>
        exact ih (.List acc.reverse :: parent) st1 (by simpa [scanBrackets] using h)

theorem parseLoop_error_of_scan :
    ∀ (ts : List LexToken) (acc : List Expr) (st : List (List Expr)) (e : ParseError),
      scanBrackets ts st.length = some e → parseLoop ts acc st = .error e := by
  intro ts
  induction ts with
  | nil =>
    intro acc st e h
    cases st with
    | nil => simp [scanBrackets] at h
    | cons p st1 =>
      simp only [List.length_cons, scanBrackets] at h
      injection h with h
      subst h
      rfl
  | cons t ts ih =>
    intro acc st e h
    cases t with
    | Num q => exact ih (.Num q :: acc) st e (by simpa [scanBrackets] using h)
    | Symbol s => exact ih (.Symbol s :: acc) st e (by simpa [scanBrackets] using h)
    | String s => exact ih (.String s :: acc) st e (by simpa [scanBrackets] using h)
    | LeftBracket => exact ih [] (acc :: st) e (by simpa [scanBrackets] using h)
    | RightBracket =>
      cases st with
      | nil =>
        simp only [List.length_nil, scanBrackets] at h
        injection h with h
        subst h
        rfl
      | cons parent st1 =>
        exact ih (.List acc.reverse :: parent) st1 e (by simpa [scanBrackets] using h)

theorem takeWhile_length_eq {p : Char → Bool} :
    ∀ l : List Char, (l.takeWhile p).length = l.length → l.takeWhile p = l := by
  intro l
  induction l with
  | nil => intro _; rfl
  | cons c rest ih =>
    intro h
    cases hp : p c
    · rw [List.takeWhile_cons, if_neg (by simp [hp])] at h
      simp at h
    · rw [List.takeWhile_cons, if_pos hp] at h ⊢
      simp only [List.length_cons, Nat.add_right_cancel_iff] at h
      rw [ih h]

theorem takeWhile_append_stop {p : Char → Bool} {xs ys : List Char}
    (hys : ys.takeWhile p = []) : (xs ++ ys).takeWhile p = xs.takeWhile p := by
  rw [List.takeWhile_append]
  split
  · rename_i hlen
    rw [hys, List.append_nil]
    exact (takeWhile_length_eq xs hlen).symm
  · rfl

/-- Predicate on a remaining input: its first character (if any) cannot
extend a symbol or numeric run; a new token or whitespace starts here. -/
def stopper : List Char → Prop
  | [] => True
  | c :: _ => symChar c = false

theorem stopper_take_sym {cs : List Char} (h : stopper cs) : cs.takeWhile symChar = [] := by
  cases cs with
  | nil => rfl
  | cons c r =>
    simp only [stopper] at h
    simp [List.takeWhile_cons, h]

theorem stopper_take_num {cs : List Char} (h : stopper cs) : cs.takeWhile numChar = [] := by
  cases cs with
  | nil => rfl
  | cons c r =>
    simp only [stopper] at h
    have hn : numChar c = false := by
      cases hn : numChar c
      · rfl
      · rw [numChar_symChar hn] at h
        exact absurd h (by simp)
    simp [List.takeWhile_cons, hn]

/-- One character of unescaping, tracking whether the previous character
was an unescaped backslash. -/
def unesc : List Char → Bool → List Char
  | [], _ => []
  | c :: b, esc =>
    if c = '\\' ∧ ¬esc then unesc b true
    else c :: unesc b false

/-- The result of `lex_string` restated over the collected body: a `\` is
dropped and the following character kept verbatim. -/
def unescape (l : List Char) : List Char := unesc l false

theorem unescape_plain {c : Char} (h : c ≠ '\\') (b : List Char) :
    unescape (c :: b) = c :: unescape b := by
  simp [unescape, unesc, h]

theorem unescape_esc (c : Char) (b : List Char) :
    unescape ('\\' :: c :: b) = c :: unescape b := by
  simp [unescape, unesc]

/-- Well-formed interior of a quoted string literal: no unescaped `"` and no
dangling final `\`; any other character stands for itself, and `\x` for `x`. -/
inductive StrBody : List Char → Prop
  | nil : StrBody []
  | chr {c : Char} {b : List Char} : c ≠ '"' → c ≠ '\\' → StrBody b → StrBody (c :: b)
  | esc (c : Char) {b : List Char} : StrBody b → StrBody ('\\' :: c :: b)

theorem lexStringBody_strBody {b : List Char} (hb : StrBody b) :
    ∀ s : List Char, lexStringBody (b ++ '"' :: s) false = some (unescape b, s) := by
  induction hb with
  | nil =>
    intro s
    rfl
  | chr hq hs _ ih =>
    rename_i c b1
    intro s
    rw [List.cons_append, lexStringBody_plain hq hs, ih s, unescape_plain hs]
    rfl
  | esc c _ ih =>
    rename_i b1
    intro s
    rw [List.cons_append, List.cons_append, lexStringBody_escape, ih s, unescape_esc]
    rfl

theorem lexStep_str {b cs : List Char} (hb : StrBody b) :
    lexStep '"' (b ++ '"' :: cs) = .emit (.String (unescape b)) cs := by
  unfold lexStep
  rw [if_pos rfl, lexStringBody_strBody hb cs]

theorem lexStep_ws {c : Char} (hws : c.isWhitespace = true) (rest : List Char) :
    lexStep c rest = .skip rest := by
  have hq : c ≠ '"' := by intro e; subst e; exact absurd hws (by decide)
  have hnum : numChar c = false := ws_not_numChar hws
  have hl : c ≠ '(' := by intro e; subst e; exact absurd hws (by decide)
  have hr : c ≠ ')' := by intro e; subst e; exact absurd hws (by decide)
  have hlex : lexNumber c rest = none := by simp [lexNumber, hnum]
  unfold lexStep
  rw [if_neg hq, hlex, if_neg hl, if_neg hr, if_pos hws]

theorem lexStep_lparen (rest : List Char) : lexStep '(' rest = .emit .LeftBracket rest := by
  have hlex : lexNumber '(' rest = none := by
    simp [lexNumber]
    intro h
    exact absurd h (by decide)
  unfold lexStep
  rw [if_neg (by decide), hlex, if_pos rfl]

theorem lexStep_rparen (rest : List Char) : lexStep ')' rest = .emit .RightBracket rest := by
  have hlex : lexNumber ')' rest = none := by
    simp [lexNumber]
    intro h
    exact absurd h (by decide)
  unfold lexStep
  rw [if_neg (by decide), hlex, if_neg (by decide), if_pos rfl]

/-- The leaf token an isolated atom run produces: a number when the numeric
run covering it parses, a symbol of the whole run otherwise. -/
def atomToken (a : List Char) : LexToken :=
  match parseF64 (a.takeWhile numChar) with
  | some q => .Num q
  | none => .Symbol a

theorem lexStep_atom {h : Char} {a0 cs : List Char}
    (hq : h ≠ '"')
    (hsym : ∀ c ∈ h :: a0, symChar c = true)
    (hpar : ∀ q, parseF64 ((h :: a0).takeWhile numChar) = some q →
      (h :: a0).takeWhile numChar = h :: a0)
    (hstop : stopper cs) :
    lexStep h (a0 ++ cs) = .emit (atomToken (h :: a0)) cs := by
  have happ : h :: (a0 ++ cs) = (h :: a0) ++ cs := by simp
  have hrunEq : (h :: (a0 ++ cs)).takeWhile numChar = (h :: a0).takeWhile numChar := by
    rw [happ]
    exact takeWhile_append_stop (stopper_take_num hstop)
  have hsymEq : (h :: (a0 ++ cs)).takeWhile symChar = h :: a0 := by
    rw [happ, takeWhile_append_stop (stopper_take_sym hstop)]
    exact List.takeWhile_eq_self_iff.mpr hsym
  cases hp : parseF64 ((h :: a0).takeWhile numChar) with
  | some q =>
    have hfull := hpar q hp
    have hnum : numChar h = true := by
      have := List.takeWhile_eq_self_iff.mp hfull
      exact this h (by simp)
    have hpf : parseF64 ((h :: (a0 ++ cs)).takeWhile numChar) = some q := by
      rw [hrunEq, hp]
    rw [lexStep_num hnum hpf]
    have hdrop : (h :: (a0 ++ cs)).drop ((h :: (a0 ++ cs)).takeWhile numChar).length = cs := by
      rw [hrunEq, hfull, happ, List.drop_left]
    rw [hdrop]
    simp [atomToken, hp]
  | none =>
    have hpf : parseF64 ((h :: (a0 ++ cs)).takeWhile numChar) = none := by
      rw [hrunEq, hp]
    have hdropSym : (h :: (a0 ++ cs)).drop (h :: a0).length = cs := by
      rw [happ, List.drop_left]
    cases hnum : numChar h with
    | true =>
      rw [lexStep_num_fail hnum hpf, hsymEq, hdropSym]
      simp [atomToken, hp]
    | false =>
      have hsymh : symChar h = true := hsym h (by simp)
      have hlex : lexNumber h (a0 ++ cs) = none := by simp [lexNumber, hnum]
      unfold lexStep
      rw [if_neg hq, hlex, if_neg (symChar_ne_lparen hsymh), if_neg (symChar_ne_rparen hsymh),
        if_neg (by simp [symChar_not_ws hsymh])]
      simp only [hsymEq, hdropSym]
      simp [atomToken, hp]

theorem runFrom_ws_skipAll :
    ∀ (w : List Char), (∀ c ∈ w, c.isWhitespace = true) →
      ∀ (cs : List Char) (acc : List LexToken), runFrom (w ++ cs) acc = runFrom cs acc := by
  intro w
  induction w with
  | nil => intro _ cs acc; rfl
  | cons c w ih =>
    intro h cs acc
    have hc : c.isWhitespace = true := h c (by simp)
    have hw : ∀ d ∈ w, d.isWhitespace = true := fun d hd => h d (by simp [hd])
    rw [List.cons_append, runFrom_skip (lexStep_ws hc _) acc, ih hw cs acc]

/-- Whitespace insertion at token boundaries: `WSIns cs cs1` relates a
source text `cs` to any text `cs1` obtained from it by copying it one lexer
chunk at a time — a whitespace character, a bracket, a complete string
literal, or a maximal atom run followed in both texts by a character that
cannot extend it — and inserting runs of whitespace between chunks. -/
inductive WSIns : List Char → List Char → Prop
  | nil : WSIns [] []
  | ws {w cs cs1} : (∀ c ∈ w, c.isWhitespace = true) → WSIns cs cs1 → WSIns cs (w ++ cs1)
  | wschar {c cs cs1} : c.isWhitespace = true → WSIns cs cs1 → WSIns (c :: cs) (c :: cs1)
  | lparen {cs cs1} : WSIns cs cs1 → WSIns ('(' :: cs) ('(' :: cs1)
  | rparen {cs cs1} : WSIns cs cs1 → WSIns (')' :: cs) (')' :: cs1)
  | str {b cs cs1} : StrBody b → WSIns cs cs1 →
      WSIns ('"' :: (b ++ '"' :: cs)) ('"' :: (b ++ '"' :: cs1))
  | atom {h a0 cs cs1} : h ≠ '"' → (∀ c ∈ h :: a0, symChar c = true) →
      (∀ q, parseF64 ((h :: a0).takeWhile numChar) = some q →
        (h :: a0).takeWhile numChar = h :: a0) →
      stopper cs → stopper cs1 → WSIns cs cs1 →
      WSIns (h :: (a0 ++ cs)) (h :: (a0 ++ cs1))

theorem WSIns_runFrom {cs cs1 : List Char} (h : WSIns cs cs1) :
    ∀ acc, runFrom cs acc = runFrom cs1 acc := by
  induction h with
  | nil => intro acc; rfl
  | ws hw _ ih =>
    intro acc
    rw [runFrom_ws_skipAll _ hw, ← ih acc]
  | wschar hc _ ih =>
    intro acc
    rw [runFrom_skip (lexStep_ws hc _) acc, runFrom_skip (lexStep_ws hc _) acc, ih]
  | lparen _ ih =>
    intro acc
    rw [runFrom_emit (lexStep_lparen _) acc, runFrom_emit (lexStep_lparen _) acc, ih]
  | rparen _ ih =>
    intro acc
    rw [runFrom_emit (lexStep_rparen _) acc, runFrom_emit (lexStep_rparen _) acc, ih]
  | str hb _ ih =>
    intro acc
    rw [runFrom_emit (lexStep_str hb) acc, runFrom_emit (lexStep_str hb) acc, ih]
  | atom hq hsym hpar hstop hstop1 _ ih =>
    intro acc
    rw [runFrom_emit (lexStep_atom hq hsym hpar hstop) acc,
      runFrom_emit (lexStep_atom hq hsym hpar hstop1) acc, ih]

theorem WSIns_lex_input {cs cs1 : List Char} (h : WSIns cs cs1) :
    lex_input cs1 = lex_input cs := by
  unfold lex_input
  have h1 := WSIns_runFrom h []
  unfold runFrom at h1
  rw [h1]

theorem parseF64_e (l : List Char) : parseF64 ('e' :: l) = none := by
  simp [parseF64]

theorem byteLen_eq_length {l : List Char} (h : ∀ c ∈ l, c.utf8Size = 1) :
    Legacy.byteLen l = l.length := by
  induction l with
  | nil => rfl
  | cons c r ih =>
    have hc := h c (by simp)
    have hr : ∀ d ∈ r, d.utf8Size = 1 := fun d hd => h d (by simp [hd])
    simp [Legacy.byteLen] at ih ⊢
    rw [hc, ih hr]
    omega

theorem lexStep_sym {c : Char} {rest : List Char}
    (hq : c ≠ '"') (hnone : lexNumber c rest = none)
    (hl : c ≠ '(') (hr : c ≠ ')') (hw : c.isWhitespace = false) :
    lexStep c rest =
      .emit (.Symbol ((c :: rest).takeWhile symChar))
        ((c :: rest).drop ((c :: rest).takeWhile symChar).length) := by
  unfold lexStep
  rw [if_neg hq, hnone, if_neg hl, if_neg hr, if_neg (by simp [hw])]

theorem legacy_tail_equiv {input : List Char}
    (hascii : ∀ c ∈ input, c.utf8Size = 1)
    {i : Nat} {c : Char}
    (hgi : input[i]? = some c)
    (hdropi : input.drop i = c :: input.drop (i + 1))
    (hcq : c ≠ '"')
    (hlegnone : Legacy.lexNumber input i c = none)
    (hnewnone : lexNumber c (input.drop (i + 1)) = none) :
    (∃ t j, Legacy.lexStep input i = .emit t j ∧
      lexStep c (input.drop (i + 1)) = .emit t (input.drop j)) ∨
    (∃ j, Legacy.lexStep input i = .skip j ∧
      lexStep c (input.drop (i + 1)) = .skip (input.drop j)) := by
  by_cases hl : c = '('
  · subst hl
    left
    refine ⟨.LeftBracket, i + 1, ?_, ?_⟩
    · simp [Legacy.lexStep, hgi, hlegnone, hcq]
    · rw [lexStep_lparen]
  · by_cases hr : c = ')'
    · subst hr
      left
      refine ⟨.RightBracket, i + 1, ?_, ?_⟩
      · simp [Legacy.lexStep, hgi, hlegnone, hcq, hl]
      · rw [lexStep_rparen]
    · by_cases hw : c.isWhitespace = true
      · right
        refine ⟨i + 1, ?_, ?_⟩
        · simp [Legacy.lexStep, hgi, hlegnone, hcq, hl, hr, hw]
        · rw [lexStep_ws hw]
      · left
        have hwf : c.isWhitespace = false := by
          cases h2 : c.isWhitespace
          · rfl
          · exact absurd h2 hw
        have hout : (input.drop i).takeWhile symChar =
            (c :: input.drop (i + 1)).takeWhile symChar := by rw [hdropi]
        have houtsub : ∀ d ∈ (input.drop i).takeWhile symChar, d ∈ input :=
          fun d hd => List.drop_subset i input (List.takeWhile_subset symChar hd)
        have hbl : Legacy.byteLen ((input.drop i).takeWhile symChar) =
            ((input.drop i).takeWhile symChar).length :=
          byteLen_eq_length (fun d hd => hascii d (houtsub d hd))
        refine ⟨.Symbol ((input.drop i).takeWhile symChar),
          i + Legacy.byteLen ((input.drop i).takeWhile symChar), ?_, ?_⟩
        · simp [Legacy.lexStep, hgi, hlegnone, hcq, hl, hr, hwf]
        · rw [lexStep_sym hcq hnewnone hl hr hwf, ← hout]
          congr 1
          rw [hbl, ← hdropi, List.drop_drop, Nat.add_comm]

theorem legacy_step_equiv {input : List Char}
    (hascii : ∀ c ∈ input, c.utf8Size = 1) (hquote : '"' ∉ input)
    {i : Nat} (hi : i < input.length) :
    (∃ t j, Legacy.lexStep input i = .emit t j ∧
      lexStep input[i] (input.drop (i + 1)) = .emit t (input.drop j)) ∨
    (∃ j, Legacy.lexStep input i = .skip j ∧
      lexStep input[i] (input.drop (i + 1)) = .skip (input.drop j)) := by
  set c := input[i] with hcdef
  have hgi : input[i]? = some c := List.getElem?_eq_getElem hi
  have hcmem : c ∈ input := List.getElem_mem hi
  have hcq : c ≠ '"' := fun e => hquote (e ▸ hcmem)
  have hdropi : input.drop i = c :: input.drop (i + 1) := List.drop_eq_getElem_cons hi
  by_cases hA : (c.isDigit || c = '-' || c = '.') = true
  · have hB : numChar c = true := by
      simp only [numChar, Bool.or_eq_true, decide_eq_true_eq] at hA ⊢
      tauto
    cases hp : parseF64 ((input.drop i).takeWhile numChar) with
    | some q =>
      left
      have hrunsub : ∀ d ∈ (input.drop i).takeWhile numChar, d ∈ input :=
        fun d hd => List.drop_subset i input (List.takeWhile_subset numChar hd)
      have hbl : Legacy.byteLen ((input.drop i).takeWhile numChar) =
          ((input.drop i).takeWhile numChar).length :=
        byteLen_eq_length (fun d hd => hascii d (hrunsub d hd))
      refine ⟨.Num q, i + Legacy.byteLen ((input.drop i).takeWhile numChar), ?_, ?_⟩
      · simp [Legacy.lexStep, hgi, hcq, Legacy.lexNumber, hA, hp]
      · have hp2 : parseF64 ((c :: input.drop (i + 1)).takeWhile numChar) = some q := by
          rw [← hdropi]
          exact hp
        rw [lexStep_num hB hp2]
        congr 1
        rw [← hdropi, hbl, List.drop_drop, Nat.add_comm]
    | none =>
      have hlegnone : Legacy.lexNumber input i c = none := by
        simp [Legacy.lexNumber, hA, hp]
      have hnewnone : lexNumber c (input.drop (i + 1)) = none := by
        have hp2 : parseF64 ((c :: input.drop (i + 1)).takeWhile numChar) = none := by
          rw [← hdropi]
          exact hp
        have hrun : (c :: input.drop (i + 1)).takeWhile numChar =
            c :: (input.drop (i + 1)).takeWhile numChar := by
          simp [List.takeWhile_cons, hB]
        rw [hrun] at hp2
        simp [lexNumber, hB, hp2]
      exact legacy_tail_equiv hascii hgi hdropi hcq hlegnone hnewnone
  · have hA2 : (c.isDigit || c = '-' || c = '.') = false := by
      cases h2 : (c.isDigit || c = '-' || c = '.')
      · rfl
      · exact absurd h2 hA
    have hlegnone : Legacy.lexNumber input i c = none := by
      simp [Legacy.lexNumber, hA2]
    by_cases hB : numChar c = true
    · have hce : c = 'e' := by
        simp only [numChar, Bool.or_eq_true, decide_eq_true_eq] at hB
        simp only [Bool.or_eq_true, decide_eq_true_eq] at hA
        tauto
      have hnewnone : lexNumber c (input.drop (i + 1)) = none := by
        have hne : numChar 'e' = true := by decide
        rw [hce]
        have hrun : ('e' :: input.drop (i + 1)).takeWhile numChar =
            'e' :: (input.drop (i + 1)).takeWhile numChar := by
          simp [List.takeWhile_cons, hne]
        simp [lexNumber, hne, hrun, parseF64_e]
      exact legacy_tail_equiv hascii hgi hdropi hcq hlegnone hnewnone
    · have hB2 : numChar c = false := by
        cases h2 : numChar c
        · rfl
        · exact absurd h2 hB
      have hnewnone : lexNumber c (input.drop (i + 1)) = none := by
        simp [lexNumber, hB2]
      exact legacy_tail_equiv hascii hgi hdropi hcq hlegnone hnewnone

theorem legacy_loop_equiv {input : List Char}
    (hascii : ∀ c ∈ input, c.utf8Size = 1) (hquote : '"' ∉ input) :
    ∀ (f i : Nat) (acc : List LexToken),
      Legacy.lexLoop input f i acc = lexLoop f (input.drop i) acc := by
  have hbl : Legacy.byteLen input = input.length := byteLen_eq_length hascii
  intro f
  induction f with
  | zero =>
    intro i acc
    by_cases hi : i < input.length
    · have hd : input.drop i = input[i] :: input.drop (i + 1) := List.drop_eq_getElem_cons hi
      conv_lhs => rw [Legacy.lexLoop]
      rw [hbl, if_pos hi, hd]
      rfl
    · have hd : input.drop i = [] := List.drop_eq_nil_of_le (Nat.le_of_not_lt hi)
      conv_lhs => rw [Legacy.lexLoop]
      rw [hbl, if_neg hi, hd]
      rfl
  | succ g ih =>
    intro i acc
    by_cases hi : i < input.length
    · have hd : input.drop i = input[i] :: input.drop (i + 1) := List.drop_eq_getElem_cons hi
      rcases legacy_step_equiv hascii hquote hi with ⟨t, j, hleg, hnew⟩ | ⟨j, hleg, hnew⟩
      · have e1 : Legacy.lexLoop input (g + 1) i acc = Legacy.lexLoop input g j (t :: acc) := by
          conv_lhs => rw [Legacy.lexLoop]
          rw [hbl, if_pos hi, hleg]
        have e2 : lexLoop (g + 1) (input.drop i) acc = lexLoop g (input.drop j) (t :: acc) := by
          rw [hd]
          simp only [lexLoop, hnew]
        rw [e1, e2, ih j (t :: acc)]
      · have e1 : Legacy.lexLoop input (g + 1) i acc = Legacy.lexLoop input g j acc := by
          conv_lhs => rw [Legacy.lexLoop]
          rw [hbl, if_pos hi, hleg]
        have e2 : lexLoop (g + 1) (input.drop i) acc = lexLoop g (input.drop j) acc := by
          rw [hd]
          simp only [lexLoop, hnew]
        rw [e1, e2, ih j acc]
    · have hd : input.drop i = [] := List.drop_eq_nil_of_le (Nat.le_of_not_lt hi)
      conv_lhs => rw [Legacy.lexLoop]
      rw [hbl, if_neg hi, hd]
      rfl

theorem legacy_lex_input_equiv {input : List Char}
    (hascii : ∀ c ∈ input, c.utf8Size = 1) (hquote : '"' ∉ input) :
    Legacy.lex_input input = lex_input input := by
  unfold Legacy.lex_input lex_input
  rw [byteLen_eq_length hascii, legacy_loop_equiv hascii hquote input.length 0 []]
  rw [List.drop_zero]

/-- An unterminated string remainder: the input ends before an unescaped
terminating double quote. Every `"` in the list is preceded by an escaping
`\\`, and a final dangling `\\` (which consumes the missing next
character) is allowed. This is exactly the complement of a body closed by
an unescaped quote. -/
inductive NoClose : List Char → Prop
  | nil : NoClose []
  | last : NoClose ['\\']
  | chr {c : Char} {b : List Char} : c ≠ '"' → c ≠ '\\' → NoClose b → NoClose (c :: b)
  | esc (c : Char) {b : List Char} : NoClose b → NoClose ('\\' :: c :: b)

theorem lexStringBody_none_of_noClose {b : List Char} (hb : NoClose b) :
    lexStringBody b false = none := by
  induction hb with
  | nil => rfl
  | last => rfl
  | chr hq hs _ ih => rw [lexStringBody_plain hq hs, ih]; rfl
  | esc c _ ih => rw [lexStringBody_escape, ih]; rfl

/-- C1: for every lexed token sequence whose brackets balance, `parse`
succeeds and the resulting expression sequence flattens back to exactly the
input tokens — so every List node's children are exactly the expressions
found between one matched LeftBracket/RightBracket pair, in source order;
in particular parsing the lex of "(a (b) c)" yields
List([Symbol a, List([Symbol b]), Symbol c]). -/
theorem claim_C1 :
    (∀ (cs : List Char) (ts : List LexToken), lex_input cs = .ok ts →
      scanBrackets ts 0 = none →
      ∃ es, parse ts = .ok es ∧ exprsToTokens es = ts) ∧
    (lex_input ['(', 'a', ' ', '(', 'b', ')', ' ', 'c', ')'] =
        .ok [.LeftBracket, .Symbol ['a'], .LeftBracket, .Symbol ['b'], .RightBracket,
          .Symbol ['c'], .RightBracket] ∧
      parse [.LeftBracket, .Symbol ['a'], .LeftBracket, .Symbol ['b'], .RightBracket,
          .Symbol ['c'], .RightBracket] =
        .ok [.List [.Symbol ['a'], .List [.Symbol ['b']], .Symbol ['c']]]) := by
  constructor
  · intro cs ts _ hbal
    obtain ⟨es, hes⟩ := parseLoop_ok_of_scan ts [] [] hbal
    refine ⟨es, hes, ?_⟩
    have := parseLoop_flat ts [] [] es hes
    simpa [stackCtx, exprsToTokens] using this
  · exact ⟨by decide, by rfl⟩

theorem claim_C1_witness :
    ∃ es, parse [.LeftBracket, .Symbol ['a'], .RightBracket] = .ok es ∧
      exprsToTokens es = [.LeftBracket, .Symbol ['a'], .RightBracket] :=
  claim_C1.1 ['(', 'a', ')'] [.LeftBracket, .Symbol ['a'], .RightBracket]
    (by decide) (by decide)

/-- C2 counterexample: the token sequence of ") (" ends while one
LeftBracket is unmatched, yet parse fails with UnmatchedClose, not with
UnmatchedOpen as the claim demands for every such sequence: the parser
reports only the first error of a left-to-right scan. -/
theorem claim_C2_counterexample :
    parse [.RightBracket, .LeftBracket] = .error .UnmatchedClose ∧
      parse [.RightBracket, .LeftBracket] ≠ .error .UnmatchedOpen := by
  constructor
  · rfl
  · intro h
    injection h with h2
    exact absurd h2 (by decide)

/-- C2 amended: parse fails with the first bracket error met scanning left
to right — UnmatchedClose when a RightBracket appears at depth zero before
any end-of-input underflow, UnmatchedOpen when the tokens end at positive
depth with no earlier unmatched RightBracket; in particular parse(lex("(a"))
fails with UnmatchedOpen and parse(lex("a)")) fails with UnmatchedClose. -/
theorem claim_C2 :
    (∀ ts : List LexToken, scanBrackets ts 0 = some .UnmatchedClose →
      parse ts = .error .UnmatchedClose) ∧
    (∀ ts : List LexToken, scanBrackets ts 0 = some .UnmatchedOpen →
      parse ts = .error .UnmatchedOpen) ∧
    (lex_input ['(', 'a'] = .ok [.LeftBracket, .Symbol ['a']] ∧
      parse [.LeftBracket, .Symbol ['a']] = .error .UnmatchedOpen) ∧
    (lex_input ['a', ')'] = .ok [.Symbol ['a'], .RightBracket] ∧
      parse [.Symbol ['a'], .RightBracket] = .error .UnmatchedClose) := by
  refine ⟨?_, ?_, ⟨by decide, rfl⟩, ⟨by decide, rfl⟩⟩
  · intro ts h
    exact parseLoop_error_of_scan ts [] [] _ h
  · intro ts h
    exact parseLoop_error_of_scan ts [] [] _ h

theorem claim_C2_witness :
    parse [.RightBracket] = .error .UnmatchedClose ∧
      parse [.LeftBracket] = .error .UnmatchedOpen :=
  ⟨claim_C2.1 [.RightBracket] (by decide), claim_C2.2.1 [.LeftBracket] (by decide)⟩

/-- C3 counterexample: on the unterminated string source `"a` the lexer
panics — `take_next`'s `.expect` fires past the end of input — rather than
returning `LexError::UnterminatedString` (no error value of the Result is
ever constructed by the lexer). -/
theorem claim_C3_counterexample : lex_input ['"', 'a'] = .panic := by decide

/-- C3 amended: for every input in which a string token is opened — at the
start of the input or at any later iteration of the scan, with any tokens
already produced — and the input ends before an unescaped terminating
double quote (`NoClose`: every quote of the remainder is escaped, a final
dangling backslash allowed), the lexer panics (Rust `.expect` on end of
input inside lex_string) instead of returning an error value; no Result
value, in particular no partial token sequence, is returned. The concrete
parts cover an escaped-quote remainder (source `"a\\"`) and a string
opened after an earlier token (source `a "x`). -/
theorem claim_C3 :
    (∀ (cs : List Char) (acc : List LexToken), NoClose cs →
      runFrom ('"' :: cs) acc = some .panic) ∧
    (∀ cs : List Char, NoClose cs → lex_input ('"' :: cs) = .panic) ∧
    lex_input ['"', 'a', '\\', '"'] = .panic ∧
    lex_input ['a', ' ', '"', 'x'] = .panic := by
  have hstep : ∀ cs : List Char, NoClose cs → lexStep '"' cs = .panic := by
    intro cs h
    unfold lexStep
    rw [if_pos rfl, lexStringBody_none_of_noClose h]
  refine ⟨?_, ?_, by decide, by decide⟩
  · intro cs acc h
    exact runFrom_panic (hstep cs h) acc
  · intro cs h
    have h2 : runFrom ('"' :: cs) [] = some .panic := runFrom_panic (hstep cs h) []
    unfold lex_input
    unfold runFrom at h2
    rw [h2]
    rfl

theorem claim_C3_witness :
    runFrom ['"', 'x'] [LexToken.Symbol ['a']] = some .panic ∧
      lex_input ['"', 'y', '\\', '"'] = .panic :=
  ⟨claim_C3.1 ['x'] [.Symbol ['a']] (NoClose.chr (by decide) (by decide) NoClose.nil),
    claim_C3.2.1 ['y', '\\', '"']
      (NoClose.chr (by decide) (by decide) (NoClose.esc '"' NoClose.nil))⟩

/-- C4: when the next character is numeric-looking the lexer reads the
maximal run of characters in the set digit, dot, e, minus; if the run
parses as a float it emits Num with that value and consumes the run, and if
it does not parse the lexer falls through to Symbol lexing from the same
position (the symbol run extends the numeric run) instead of failing; in
particular lex "-" gives Symbol "-", lex "-1" gives Num -1, lex "-0.1e-5"
gives Num -0.1e-5 (the exact rational -1/1000000), and lex "e" gives
Symbol "e". -/
theorem claim_C4 :
    (∀ (c : Char) (rest : List Char) (q : ℚ), numChar c = true →
      parseF64 ((c :: rest).takeWhile numChar) = some q →
      lexStep c rest =
        .emit (.Num q) ((c :: rest).drop ((c :: rest).takeWhile numChar).length)) ∧
    (∀ (c : Char) (rest : List Char), numChar c = true →
      parseF64 ((c :: rest).takeWhile numChar) = none →
      lexStep c rest =
          .emit (.Symbol ((c :: rest).takeWhile symChar))
            ((c :: rest).drop ((c :: rest).takeWhile symChar).length) ∧
        ∃ ext, (c :: rest).takeWhile symChar = (c :: rest).takeWhile numChar ++ ext) ∧
    lex_input ['-'] = .ok [.Symbol ['-']] ∧
    lex_input ['-', '1'] = .ok [.Num (-1)] ∧
    lex_input ['-', '0', '.', '1', 'e', '-', '5'] = .ok [.Num (Rat.divInt (-1) 1000000)] ∧
    lex_input ['e'] = .ok [.Symbol ['e']] := by
  refine ⟨?_, ?_, by decide, by decide, by decide, by decide⟩
  · intro c rest q h hp
    exact lexStep_num h hp
  · intro c rest h hp
    exact ⟨lexStep_num_fail h hp,
      takeWhile_mono_ext (fun d hd => numChar_symChar hd) (c :: rest)⟩

theorem claim_C4_witness :
    lexStep '1' [] = .emit (.Num 1) [] ∧ lexStep '.' [] = .emit (.Symbol ['.']) [] :=
  ⟨claim_C4.1 '1' [] 1 (by decide) (by decide),
    (claim_C4.2.1 '.' [] (by decide) (by decide)).1⟩

/-- C5: inside a double-quoted string a backslash escapes the next
character: escaping any character yields that character in the collected
string, and for characters other than the quote and the backslash the
escape has no special meaning at all (escaped and unescaped lexing agree);
in particular the source `"a\"b"` lexes to the single String a"b and the
source `"a\\b"` to the single String a\b. -/
theorem claim_C5 :
    (∀ (c : Char) (rest : List Char),
      lexStringBody ('\\' :: c :: rest) false =
        (lexStringBody rest false).map (fun p => (c :: p.1, p.2))) ∧
    (∀ (c : Char) (rest : List Char), c ≠ '"' → c ≠ '\\' →
      lexStringBody ('\\' :: c :: rest) false = lexStringBody (c :: rest) false) ∧
    lex_input ['"', 'a', '\\', '"', 'b', '"'] = .ok [.String ['a', '"', 'b']] ∧
    lex_input ['"', 'a', '\\', '\\', 'b', '"'] = .ok [.String ['a', '\\', 'b']] := by
  refine ⟨lexStringBody_escape, ?_, by decide, by decide⟩
  intro c rest hq hb
  rw [lexStringBody_escape, lexStringBody_plain hq hb]

theorem claim_C5_witness :
    lexStringBody ['\\', 'x', '"'] false = lexStringBody ['x', '"'] false :=
  claim_C5.2.1 'x' ['"'] (by decide) (by decide)

/-- C6 counterexample: removing the whitespace run separating the two
tokens of "a b" entirely changes the token sequence — the two symbols merge
into one — so removing runs of whitespace between tokens is not invariant. -/
theorem claim_C6_counterexample :
    lex_input ['a', ' ', 'b'] = .ok [.Symbol ['a'], .Symbol ['b']] ∧
      lex_input ['a', 'b'] = .ok [.Symbol ['a', 'b']] ∧
      lex_input ['a', ' ', 'b'] ≠ lex_input ['a', 'b'] :=
  ⟨by decide, by decide, by decide⟩

/-- C6 amended: inserting runs of whitespace at token boundaries (outside
string literals) never changes the token sequence produced by lex (hence
nor the parsed tree); removing a whitespace run is only safe while the
tokens it separates stay separated — removing a separating run entirely can
merge adjacent symbol or number tokens. In particular the two concrete
renderings of ("x" "y") lex token-for-token identically. -/
theorem claim_C6 :
    (∀ cs cs1 : List Char, WSIns cs cs1 → lex_input cs1 = lex_input cs) ∧
    lex_input [' ', ' ', '(', ' ', ' ', '"', 'x', '"', ' ', ' ', ' ',
        '"', 'y', '"', ' ', ' ', ')', ' ', ' '] =
      lex_input ['(', '"', 'x', '"', ' ', '"', 'y', '"', ')'] := by
  refine ⟨?_, by decide⟩
  intro cs cs1 h
  exact WSIns_lex_input h

theorem claim_C6_witness : lex_input [' ', 'a'] = lex_input ['a'] := by
  apply claim_C6.1
  have hatom : WSIns ['a'] ['a'] := by
    have hpar : ∀ q, parseF64 ((['a'] : List Char).takeWhile numChar) = some q →
        (['a'] : List Char).takeWhile numChar = ['a'] := by
      intro q hq
      cases hq
    exact @WSIns.atom 'a' [] [] [] (by decide) (by decide) hpar trivial trivial WSIns.nil
  exact @WSIns.ws [' '] ['a'] ['a'] (by decide) hatom

/-- C7: the scan loop of lex_input always terminates: every iteration
consumes at least one character, so fuel equal to the input length always
suffices, and any larger fuel returns the same value, namely the one
lex_input returns. -/
theorem claim_C7 :
    ∀ (cs : List Char) (f : Nat), cs.length ≤ f →
      lexLoop f cs [] = some (lex_input cs) := by
  intro cs f h
  rw [lexLoop_mono f cs [] h]
  exact runFrom_lex_input cs

theorem claim_C7_witness : lexLoop 5 ['a', 'b'] [] = some (lex_input ['a', 'b']) :=
  claim_C7 ['a', 'b'] 5 (by decide)

/-- C8: lex_input never returns the Err variant of its Result type — the
code constructs no lexer error value (in particular no InvalidNumber) — and
whenever it returns at all (does not panic) the result is the Ok variant. -/
theorem claim_C8 :
    ∀ cs : List Char,
      (∀ s, lex_input cs ≠ .err s) ∧
      (lex_input cs ≠ .panic → ∃ ts, lex_input cs = .ok ts) := by
  intro cs
  obtain ⟨r, hr⟩ := runFrom_some cs []
  have hlex : lex_input cs = r := by
    unfold lex_input
    unfold runFrom at hr
    rw [hr]
    rfl
  constructor
  · intro s h
    rw [hlex] at h
    exact lexLoop_ne_err cs.length cs [] s (h ▸ hr)
  · intro hp
    rw [hlex] at hp ⊢
    cases r with
    | panic => exact absurd rfl hp
    | ok ts => exact ⟨ts, rfl⟩
    | err s => exact absurd hr (lexLoop_ne_err cs.length cs [] s)

theorem claim_C8_witness :
    (lex_input ['a'] ≠ .err ['x']) ∧ (∃ ts, lex_input ['a'] = .ok ts) :=
  ⟨(claim_C8 ['a']).1 ['x'], (claim_C8 ['a']).2 (by decide)⟩

/-- C9 counterexample: on the 4-character source `"\""` the two lexers
disagree: src/lexer.rs honours the escape and returns the single String
token containing one quote, while src/parser.rs ignores escapes and
returns two String tokens. -/
theorem claim_C9_counterexample :
    lex_input ['"', '\\', '"', '"'] = .ok [.String ['"']] ∧
      Legacy.lex_input ['"', '\\', '"', '"'] = .ok [.String ['\\'], .String []] ∧
      Legacy.lex_input ['"', '\\', '"', '"'] ≠ lex_input ['"', '\\', '"', '"'] :=
  ⟨by decide, by decide, by decide⟩

/-- C9 amended: the two lex_input functions agree on every input string
whose characters are all single-byte (so the byte-length versus
character-index mix-up of src/parser.rs cannot surface) and which contains
no double quote (so no string literal, where the two escape treatments
differ, is ever lexed). -/
theorem claim_C9 :
    ∀ input : List Char, (∀ c ∈ input, c.utf8Size = 1) → '"' ∉ input →
      Legacy.lex_input input = lex_input input := by
  intro input h1 h2
  exact legacy_lex_input_equiv h1 h2

theorem claim_C9_witness :
    Legacy.lex_input ['(', 'a', ')'] = lex_input ['(', 'a', ')'] :=
  claim_C9 ['(', 'a', ')'] (by decide) (by decide)

/-- C10: every Symbol token in a sequence returned by lex_input is
non-empty and contains no whitespace character and no bracket character. -/
theorem claim_C10 :
    ∀ (cs : List Char) (ts : List LexToken), lex_input cs = .ok ts →
      ∀ s, LexToken.Symbol s ∈ ts →
        s ≠ [] ∧ ∀ c ∈ s, c.isWhitespace = false ∧ c ≠ '(' ∧ c ≠ ')' := by
  intro cs ts h s hs
  have hrun : runFrom cs [] = some (.ok ts) := by
    rw [runFrom_lex_input cs, h]
  have hinv := lexLoop_symbol_inv cs.length cs [] ts hrun (by intro s1 h1; simp at h1) s hs
  refine ⟨hinv.1, fun c hc => ?_⟩
  have hsym := hinv.2 c hc
  exact ⟨symChar_not_ws hsym, symChar_ne_lparen hsym, symChar_ne_rparen hsym⟩

theorem claim_C10_witness :
    (['a', '+'] : List Char) ≠ [] ∧
      ∀ c ∈ (['a', '+'] : List Char), c.isWhitespace = false ∧ c ≠ '(' ∧ c ≠ ')' :=
  claim_C10 ['a', '+'] [.Symbol ['a', '+']] (by decide) ['a', '+'] (by simp)
